import Mathlib

/-!
Verification of the documentation-comment extraction and rewrite tool
(scripts section of the repository, file extract-tsdoc.py).

Text is modelled as `List Char` (named `Str` below).  Python string
primitives used by the script (strip, split, join, find, `in`, slicing,
first-occurrence replace) are translated one by one; the functions of the
script (`remove_markdown_fences`, `run_task`, `find_classes`,
`find_namespace_content`, and the `__main__` driver) are translated on top
of them, keeping the source names.  The external text-generation backend
and the interactive operator are modelled as oracles indexed by the
candidate position, which is the standard shallow embedding of the
sequential stdin/subprocess interaction of the script.  Whitespace is the
ASCII whitespace set used by the CPython string routines on this input
class.
-/

/-- Text as a list of characters. -/
abbrev Str := List Char

/-- Character list of a string literal. -/
def chars (s : String) : Str := s.toList

/-- ASCII whitespace, as recognised by the Python routines used in the
script (str.strip, str.isspace, and the regex class backslash-s). -/
def isSpace (c : Char) : Bool :=
  c = ' ' || c = '\t' || c = '\n' || c = '\r' || c = Char.ofNat 11 || c = Char.ofNat 12

/-- Word characters of the regex class backslash-w (ASCII). -/
def isWordChar (c : Char) : Bool :=
  ('a' ≤ c && c ≤ 'z') || ('A' ≤ c && c ≤ 'Z') || ('0' ≤ c && c ≤ '9') || c = '_'

/-- The opening-brace character. -/
def lbrace : Char := Char.ofNat 123

/-- The closing-brace character. -/
def rbrace : Char := Char.ofNat 125

/-- The triple-backtick fence marker of remove_markdown_fences. -/
def fenceMarker : Str := [Char.ofNat 96, Char.ofNat 96, Char.ofNat 96]

/-- Python str.strip(): remove leading and trailing whitespace. -/
def pyStrip (l : Str) : Str :=
  ((l.dropWhile isSpace).reverse.dropWhile isSpace).reverse

/-- Python str.split(sep) for a one-character separator: always returns a
nonempty list of (possibly empty) chunks. -/
def pySplit (sep : Char) : Str → List Str
  | [] => [[]]
  | c :: cs =>
    if c = sep then [] :: pySplit sep cs
    else
      match pySplit sep cs with
      | [] => [[c]]
      | l :: ls => (c :: l) :: ls

/-- Python sep.join(chunks) for a one-character separator. -/
def pyJoin (sep : Char) : List Str → Str
  | [] => []
  | [l] => l
  | l :: l2 :: ls => l ++ sep :: pyJoin sep (l2 :: ls)

/-- Python substring membership test (needle in haystack). -/
def pyIn (needle : Str) : Str → Bool
  | [] => needle.isPrefixOf []
  | c :: cs => needle.isPrefixOf (c :: cs) || pyIn needle cs

/-- Python slice content[s:e] (for the in-range uses of the script). -/
def pySlice (l : Str) (s e : Nat) : Str := (l.drop s).take (e - s)

/-- Leftmost index (relative to the given list) at which `pat` occurs, as
in Python str.find restricted to a suffix. -/
def findSubAux (pat : Str) : Str → Option Nat
  | [] => if pat.isPrefixOf ([] : Str) then some 0 else none
  | c :: cs =>
    if pat.isPrefixOf (c :: cs) then some 0
    else (findSubAux pat cs).map (· + 1)

/-- Python content.find(pat, start), with failure as none. -/
def findSub (content pat : Str) (start : Nat) : Option Nat :=
  (findSubAux pat (content.drop start)).map (· + start)

/-- The whitespace-skipping loop of the declaration matcher: first index at
or after `p` holding a non-whitespace character (or the length). -/
def skipWs (content : Str) (p : Nat) : Nat :=
  p + ((content.drop p).takeWhile isSpace).length

/-- Python text.replace(old, new, 1): replace the first occurrence only. -/
def replaceFirst (old new : Str) : Str → Str
  | [] => if old.isPrefixOf ([] : Str) then new else []
  | c :: cs =>
    if old.isPrefixOf (c :: cs) then new ++ (c :: cs).drop old.length
    else c :: replaceFirst old new cs

/-- remove_markdown_fences from the script: strip the text, and when it is
enclosed in triple-backtick fences remove the opening fence line (which may
carry a language tag) and, when the final line strips to exactly the fence
marker, the closing fence line; a one-line fenced text keeps the characters
between the markers, stripped. -/
def remove_markdown_fences (text : Str) : Str :=
  let t := pyStrip text
  if fenceMarker.isPrefixOf t && fenceMarker.isSuffixOf t then
    let lines := pySplit '\n' t
    if 1 < lines.length then
      let lines1 :=
        match lines with
        | [] => []
        | l0 :: rest => if fenceMarker.isPrefixOf l0 then rest else l0 :: rest
      let lines2 :=
        match lines1.getLast? with
        | some ll => if pyStrip ll = fenceMarker then lines1.dropLast else lines1
        | none => lines1
      pyJoin '\n' lines2
    else
      pyStrip ((t.drop 3).take (t.length - 6))
  else t

/-- Outcome of the external backend subprocess call made by run_task: a
normal exit with captured stdout, a missing executable, or a non-zero exit
(subprocess.CalledProcessError, carrying stderr). -/
inductive BackendOutcome where
  | success (stdout : Str)
  | fileNotFound
  | calledProcessError (stderr : Str)
deriving DecidableEq

/-- run_task from the script, as a function of the subprocess outcome: on a
normal exit the stripped stdout is returned unless it is exactly OK; the
missing-executable and non-zero-exit paths print a message and fall through
to returning None.  The prompt built from the comment, declaration, class
name and draft description only feeds the backend and does not influence
this result, so it is not represented. -/
def run_task (outcome : BackendOutcome) : Option Str :=
  match outcome with
  | .success out =>
    let o := pyStrip out
    if o = chars "OK" then none else some o
  | .fileNotFound => none
  | .calledProcessError _ => none

/-- The brace-counting scan shared by find_classes and
find_namespace_content: consume characters while maintaining the open-brace
count `d`; when the count reaches zero return the consumed characters
(excluding the closing brace); if the list ends first, report failure. -/
def scanBody : Str → Nat → Option Str
  | [], _ => none
  | c :: cs, d =>
    let d2 := if c = lbrace then d + 1 else if c = rbrace then d - 1 else d
    if d2 = 0 then some []
    else (scanBody cs d2).map (fun b => c :: b)

/-- Length of the leading whitespace run (regex backslash-s star, maximal). -/
def wsRun (l : Str) : Nat := (l.takeWhile isSpace).length

/-- Backtracking step of the regex fragment backslash-s plus followed by a
literal name: try whitespace-run lengths j, j-1, ..., 1 (greedy, longest
first) and return the remainder after the name on the first success. -/
def nameAt (rest name : Str) : Nat → Option Str
  | 0 => none
  | j + 1 =>
    if name.isPrefixOf (rest.drop (j + 1)) then some ((rest.drop (j + 1)).drop name.length)
    else nameAt rest name j

/-- Backtracking step of the regex fragment backslash-s star followed by a
literal opening brace: try offsets j, j-1, ..., 0 (greedy) and return the
remainder after the brace on the first success. -/
def braceAt (r2 : Str) : Nat → Option Str
  | 0 =>
    match r2 with
    | c :: t => if c = lbrace then some t else none
    | [] => none
  | j + 1 =>
    match r2.drop (j + 1) with
    | c :: t => if c = lbrace then some t else braceAt r2 j
    | [] => braceAt r2 j

/-- The literal word opening a namespace header. -/
def nsKeyword : Str := chars "namespace"

/-- Match of the namespace-header regex (the word namespace, one or more
whitespace characters, the escaped segment name, optional whitespace, an
opening brace) at the head of `cs`; returns the text after the brace. -/
def nsHeaderMatch (name cs : Str) : Option Str :=
  if nsKeyword.isPrefixOf cs then
    let rest := cs.drop 9
    match nameAt rest name (wsRun rest) with
    | some rest2 => braceAt rest2 (wsRun rest2)
    | none => none
  else none

/-- re.search of the namespace-header pattern: leftmost position wins. -/
def nsSearch (name : Str) : Str → Option Str
  | [] => none
  | c :: cs =>
    match nsHeaderMatch name (c :: cs) with
    | some r => some r
    | none => nsSearch name cs

/-- One step of find_namespace_content: locate the header of one namespace
segment and return the brace-matched body following it; none when the
header is absent or the closing brace is never reached. -/
def nsBody (name content : Str) : Option Str :=
  (nsSearch name content).bind (fun rest => scanBody rest 1)

/-- find_namespace_content from the script: split the dotted path and walk
the segments, narrowing to the brace-matched body at each step. -/
def find_namespace_content (content : Str) (namespacePath : Str) : Option Str :=
  (pySplit '.' namespacePath).foldlM (fun cur n => nsBody n cur) content

/-- Signed brace depth: occurrences of the opening brace minus occurrences
of the closing brace. -/
def depth (l : Str) : Int := (l.count lbrace : Int) - (l.count rbrace : Int)

/-- A class record of find_classes: name, start offset of the regex match
(the line start, leading whitespace included), and the offset of the
matching closing brace. -/
structure ClassSpan where
  name : Str
  start : Nat
  endPos : Nat
deriving DecidableEq

/-- The class-introducing pattern of find_classes, tried at one line-start
position (suffix `cs`): optional whitespace, an optional export keyword,
the word class, whitespace, and a word-character name.  Greedy matching
with a literal non-whitespace word after each whitespace class makes the
maximal-run interpretation exact.  Returns the name and the text after it. -/
def classMatchAt (cs : Str) : Option (Str × Str) :=
  let afterWs := cs.drop (wsRun cs)
  let tryClass : Str → Option (Str × Str) := fun s =>
    if (chars "class").isPrefixOf s then
      let t := s.drop 5
      let j := wsRun t
      if 1 ≤ j then
        let u := t.drop j
        let name := u.takeWhile isWordChar
        if name = [] then none else some (name, u.drop name.length)
      else none
    else none
  let withExport : Option (Str × Str) :=
    if (chars "export").isPrefixOf afterWs then
      let t := afterWs.drop 6
      let j := wsRun t
      if 1 ≤ j then tryClass (t.drop j) else none
    else none
  match withExport with
  | some r => some r
  | none => tryClass afterWs

/-- Whether `pos` begins a line of `content` (the MULTILINE caret). -/
def atLineStart (content : Str) (pos : Nat) : Bool :=
  pos = 0 || (content.drop (pos - 1)).head? = some '\n'

/-- finditer of the class pattern: scan positions left to right, matching
only at line starts, and continue after each match (non-overlapping).  The
fuel argument (always called with more fuel than positions) keeps the scan
structurally recursive so that concrete runs reduce in the kernel. -/
def findClassScanFuel (content : Str) : Nat → Nat → List (Nat × Str × Nat)
  | 0, _ => []
  | fuel + 1, pos =>
    if content.length < pos then []
    else
      if atLineStart content pos then
        match classMatchAt (content.drop pos) with
        | some (name, rem) =>
          (pos, name, content.length - rem.length) ::
            findClassScanFuel content fuel (content.length - rem.length)
        | none => findClassScanFuel content fuel (pos + 1)
      else findClassScanFuel content fuel (pos + 1)

/-- All class-pattern matches of the content. -/
def findClassMatches (content : Str) : List (Nat × Str × Nat) :=
  findClassScanFuel content (content.length + 2) 0

/-- find_classes from the script: for every class-pattern match, find the
first opening brace after the name and the matching closing brace by brace
counting; matches without a brace or without a matching close are dropped. -/
def find_classes (content : Str) : List ClassSpan :=
  (findClassMatches content).filterMap (fun m =>
    match findSub content [lbrace] m.2.2 with
    | none => none
    | some bracePos =>
      match scanBody (content.drop (bracePos + 1)) 1 with
      | none => none
      | some body => some ⟨m.2.1, m.1, bracePos + 1 + body.length⟩)

/-- finditer of the non-greedy documentation-comment pattern: each match
starts at a comment opener and ends just after the nearest closer; scanning
resumes after the match.  A comment opener with no closer fails at that
position and the scan moves one character forward, as the regex engine
does.  Fuel keeps the function structurally recursive. -/
def findTsdocSpansFuel (content : Str) : Nat → Nat → List (Nat × Nat)
  | 0, _ => []
  | fuel + 1, pos =>
    match findSub content (chars "/**") pos with
    | none => []
    | some p =>
      match findSub content (chars "*/") (p + 3) with
      | none => findTsdocSpansFuel content fuel (p + 1)
      | some q => (p, q + 2) :: findTsdocSpansFuel content fuel (q + 2)

/-- Spans (start, end) of all documentation-comment matches. -/
def findTsdocSpans (content : Str) : List (Nat × Nat) :=
  findTsdocSpansFuel content (content.length + 2) 0

/-- The declaration matcher of the driver loop: from the end offset of a
comment match, skip whitespace; if nothing follows there is no candidate;
otherwise cut at the next newline, falling back to the start offset of the
next comment match when there is no newline or the newline lies beyond it,
and strip the result. -/
def declarationAt (ctp : Str) (matchEnd nextStart : Nat) : Option Str :=
  let ds := skipWs ctp matchEnd
  if ds < ctp.length then
    let de :=
      match findSub ctp ['\n'] ds with
      | none => nextStart
      | some n => if nextStart < n then nextStart else n
    some (pyStrip (pySlice ctp ds de))
  else none

/-- The next-comment boundary used by the driver loop: the start offset of
the following match, or the length of the scoped text for the last one. -/
def nextTsdocStart (ctp : Str) (rest : List (Nat × Nat)) : Nat :=
  match rest with
  | [] => ctp.length
  | (s2, _) :: _ => s2

/-- Enclosing-class attribution: the first class record whose span strictly
contains the comment start offset. -/
def attributeClass (classes : List ClassSpan) (start : Nat) : Option Str :=
  (classes.find? (fun cls => Nat.blt cls.start start && Nat.blt start cls.endPos)).map
    (fun cls => cls.name)

/-- The filter guard of the driver loop (Python truthiness: an empty filter
string disables filtering). -/
def filteredOut (filterText : Option Str) (tsdoc : Str) : Bool :=
  match filterText with
  | none => false
  | some f => !(f.isEmpty) && !(pyIn f tsdoc)

/-- One interactive answer of the operator: run the task, skip, quit, or
run the task with a draft description. -/
inductive Choice where
  | y
  | n
  | q
  | d (draft : Str)
deriving DecidableEq

/-- The per-candidate loop of the driver.  `ctp` is the scoped text being
scanned, `spans` the remaining comment matches, `i` the index of the next
match (indexing the operator and backend oracles), and `modified` the
working buffer holding the full file text.  Interactive answers and
subprocess outcomes are read from the oracles; the draft description only
changes the prompt, so both approving answers behave alike here.  A
run_task result is substituted only when it is truthy (non-empty), as in
the Python guard on new_tsdoc; fence stripping happens after that guard. -/
def sessionLoop (ctp : Str) (classes : List ClassSpan) (filterText : Option Str)
    (yolo : Bool) (choices : Nat → Choice) (backend : Nat → BackendOutcome) :
    List (Nat × Nat) → Nat → Str → Str
  | [], _, modified => modified
  | (s, e) :: rest, i, modified =>
    let tsdoc := pySlice ctp s e
    let _currentClass := attributeClass classes s
    if filteredOut filterText tsdoc then
      sessionLoop ctp classes filterText yolo choices backend rest (i + 1) modified
    else
      match declarationAt ctp e (nextTsdocStart ctp rest) with
      | none => sessionLoop ctp classes filterText yolo choices backend rest (i + 1) modified
      | some _declaration =>
        if yolo then
          match run_task (backend i) with
          | some newTsdoc =>
            if newTsdoc = [] then
              sessionLoop ctp classes filterText yolo choices backend rest (i + 1) modified
            else
              sessionLoop ctp classes filterText yolo choices backend rest (i + 1)
                (replaceFirst tsdoc (remove_markdown_fences newTsdoc) modified)
          | none => sessionLoop ctp classes filterText yolo choices backend rest (i + 1) modified
        else
          match choices i with
          | .q => modified
          | .n => sessionLoop ctp classes filterText yolo choices backend rest (i + 1) modified
          | _ =>
            match run_task (backend i) with
            | some newTsdoc =>
              if newTsdoc = [] then
                sessionLoop ctp classes filterText yolo choices backend rest (i + 1) modified
              else
                sessionLoop ctp classes filterText yolo choices backend rest (i + 1)
                  (replaceFirst tsdoc (remove_markdown_fences newTsdoc) modified)
            | none => sessionLoop ctp classes filterText yolo choices backend rest (i + 1) modified

/-- The command-line state assembled by the argument loop. -/
structure Args where
  debug : Bool
  filePath : Option Str
  namespaceArg : Option Str
  yolo : Bool
  filterText : Option Str
deriving DecidableEq

/-- One step of the argument loop of the script. -/
def parseArg (a : Args) (arg : Str) : Args :=
  if arg = chars "--debug" then { a with debug := true }
  else if arg = chars "--yolo" then { a with yolo := true }
  else if (chars "--filter=").isPrefixOf arg then { a with filterText := some (arg.drop 9) }
  else if (chars "--namespace=").isPrefixOf arg then { a with namespaceArg := some (arg.drop 12) }
  else if !((chars "--").isPrefixOf arg) then { a with filePath := some arg }
  else a

/-- The whole argument loop over sys.argv (program name excluded). -/
def parseArgs (argv : List Str) : Args :=
  argv.foldl parseArg ⟨false, none, none, false, none⟩

/-- Observable outcome of one run: the exit code, the final working buffer
(none when the run aborts before processing), and the content written back
to the file (none when the file is left untouched). -/
structure RunResult where
  exitCode : Nat
  finalBuffer : Option Str
  written : Option Str
deriving DecidableEq

/-- The driver of the script: parse arguments; abort with a usage message
when no (non-empty) file path is given; narrow to the namespace region when
a non-empty namespace path is given, aborting when it cannot be resolved;
scan classes and comment matches in the scoped text; run the per-candidate
loop on the working buffer (the full file text); finally, when the buffer
changed, write it back — immediately in unattended mode, after operator
confirmation otherwise.  The file content is passed in place of the read,
and `confirmWrite` models the final interactive answer. -/
def runMain (argv : List Str) (content : Str) (choices : Nat → Choice)
    (backend : Nat → BackendOutcome) (confirmWrite : Bool) : RunResult :=
  let args := parseArgs argv
  match args.filePath with
  | none => ⟨1, none, none⟩
  | some fp =>
    if fp = [] then ⟨1, none, none⟩
    else
      match
        (match args.namespaceArg with
         | some ns => if ns = [] then some content else find_namespace_content content ns
         | none => some content) with
      | none => ⟨1, none, none⟩
      | some ctp =>
        let classes := find_classes ctp
        let spans := findTsdocSpans ctp
        let modified :=
          sessionLoop ctp classes args.filterText args.yolo choices backend spans 0 content
        if modified ≠ content then
          if args.yolo then ⟨0, some modified, some modified⟩
          else if confirmWrite then ⟨0, some modified, some modified⟩
          else ⟨0, some modified, none⟩
        else ⟨0, some modified, none⟩

/-- The declaration extraction as the specification sentence describes it
(a definition following the spec wording, for comparison with
`declarationAt`): text after the comment with whitespace skipped, taken up
to whichever comes first of a statement terminator, an opening block
marker, or the start of the next documentation block, then trimmed. -/
def declClaimedAt (ctp : Str) (matchEnd nextStart : Nat) : Option Str :=
  let ds := skipWs ctp matchEnd
  if ds < ctp.length then
    let semi := (findSub ctp [';'] ds).getD nextStart
    let brace := (findSub ctp [lbrace] ds).getD nextStart
    let de := min (min semi brace) nextStart
    some (pyStrip (pySlice ctp ds de))
  else none

/-- The backend answered with a normal exit whose stripped stdout is the
no-change marker OK. -/
def okResponse (o : BackendOutcome) : Prop :=
  ∃ out, o = BackendOutcome.success out ∧ pyStrip out = chars "OK"

/-- Decomposition certificate for one namespace segment: the outer text
splits into a prefix, a namespace header for `name` ending at an opening
brace, the located body, the matching closing brace and a tail; the body is
brace balanced (depth zero overall, and no prefix drops below zero). -/
def nsDecomp (name outer body : Str) : Prop :=
  ∃ pre w1 w2 tail,
    outer = pre ++ nsKeyword ++ w1 ++ name ++ w2 ++ lbrace :: (body ++ rbrace :: tail) ∧
    w1 ≠ [] ∧ (∀ a ∈ w1, isSpace a = true) ∧ (∀ a ∈ w2, isSpace a = true) ∧
    depth body = 0 ∧ ∀ p, p <+: body → 0 ≤ depth p

/-! ### Basic lemmas about the Python string primitives -/

theorem isPrefixOf_append_self : ∀ (l r : Str), l.isPrefixOf (l ++ r) = true := by
  intro l r
  exact List.isPrefixOf_iff_prefix.mpr ⟨r, rfl⟩

theorem eq_append_drop_of_isPrefixOf {l m : Str} (h : l.isPrefixOf m = true) :
    m = l ++ m.drop l.length := by
  obtain ⟨t, ht⟩ := List.isPrefixOf_iff_prefix.mp h
  subst ht
  rw [List.drop_left]

theorem singleton_isPrefixOf_iff {a : Char} {l : Str} :
    [a].isPrefixOf l = true ↔ l.head? = some a := by
  rw [List.isPrefixOf_iff_prefix]
  cases l with
  | nil => simp
  | cons c cs => rw [List.cons_prefix_cons]; simp [eq_comm]

theorem pySplit_ne_nil (sep : Char) (l : Str) : pySplit sep l ≠ [] := by
  cases l with
  | nil => exact fun h => List.noConfusion h
  | cons c cs =>
    by_cases hc : c = sep
    · simp only [pySplit, if_pos hc]
      exact fun h => List.noConfusion h
    · simp only [pySplit, if_neg hc]
      cases hm : pySplit sep cs with
      | nil => exact fun h => List.noConfusion h
      | cons a t => exact fun h => List.noConfusion h

theorem pySplit_append_sep (sep : Char) (xs ys : Str) :
    pySplit sep (xs ++ sep :: ys) = pySplit sep xs ++ pySplit sep ys := by
  induction xs with
  | nil => simp only [List.nil_append, pySplit, if_pos rfl]; rfl
  | cons x xs ih =>
    by_cases hx : x = sep
    · rw [List.cons_append]
      simp only [pySplit, if_pos hx, ih]
      rfl
    · obtain ⟨a, t, ht⟩ := List.exists_cons_of_ne_nil (pySplit_ne_nil sep xs)
      rw [List.cons_append]
      simp only [pySplit, if_neg hx, ih, ht]
      rfl

theorem pySplit_eq_single (sep : Char) (l : Str) (h : sep ∉ l) : pySplit sep l = [l] := by
  induction l with
  | nil => rfl
  | cons c cs ih =>
    simp only [List.mem_cons, not_or] at h
    have hcs : ¬ c = sep := fun hc => h.1 hc.symm
    simp only [pySplit, if_neg hcs, ih h.2]

theorem pyJoin_pySplit (sep : Char) (l : Str) : pyJoin sep (pySplit sep l) = l := by
  induction l with
  | nil => rfl
  | cons c cs ih =>
    obtain ⟨a, t, ht⟩ := List.exists_cons_of_ne_nil (pySplit_ne_nil sep cs)
    by_cases hc : c = sep
    · simp only [pySplit, if_pos hc]
      rw [ht] at ih ⊢
      cases t with
      | nil => simp only [pyJoin] at ih ⊢; rw [ih, hc]; simp
      | cons b t2 => simp only [pyJoin] at ih ⊢; rw [ih, hc]; simp
    · simp only [pySplit, if_neg hc, ht]
      rw [ht] at ih
      cases t with
      | nil => simp only [pyJoin] at ih ⊢; rw [ih]
      | cons b t2 =>
        simp only [pyJoin] at ih ⊢
        rw [List.cons_append, ih]

theorem pyJoin_concat (sep : Char) (ls : List Str) (x : Str) (h : ls ≠ []) :
    pyJoin sep (ls ++ [x]) = pyJoin sep ls ++ sep :: x := by
  induction ls with
  | nil => exact absurd rfl h
  | cons a t ih =>
    cases t with
    | nil => rfl
    | cons b t2 =>
      have ih2 := ih (List.cons_ne_nil b t2)
      rw [List.cons_append] at ih2 ⊢
      simp only [pyJoin, List.append_eq] at ih2 ⊢
      rw [ih2]
      simp

theorem dropWhile_eq_self_of_head (p : Char → Bool) {l : Str}
    (h : ∀ c, l.head? = some c → p c = false) : l.dropWhile p = l := by
  cases l with
  | nil => rfl
  | cons c t =>
    rw [List.dropWhile_cons, if_neg]
    simp [h c rfl]

theorem pyStrip_eq_self {l : Str} (a b : Char) (ha : l.head? = some a)
    (hsa : isSpace a = false) (hb : l.getLast? = some b) (hsb : isSpace b = false) :
    pyStrip l = l := by
  unfold pyStrip
  rw [show l.dropWhile isSpace = l from dropWhile_eq_self_of_head _ (fun c hc => by
        rw [ha] at hc; exact (Option.some.inj hc) ▸ hsa),
      show l.reverse.dropWhile isSpace = l.reverse from dropWhile_eq_self_of_head _ (fun c hc => by
        rw [List.head?_reverse l, hb] at hc; exact (Option.some.inj hc) ▸ hsb),
      List.reverse_reverse]

/-! ### Search, whitespace-skip and first-occurrence-replace lemmas -/

theorem findSubAux_some {pat l : Str} {j : Nat} (h : findSubAux pat l = some j) :
    pat.isPrefixOf (l.drop j) = true ∧ ∀ m, m < j → pat.isPrefixOf (l.drop m) = false := by
  induction l generalizing j with
  | nil =>
    unfold findSubAux at h
    split at h
    · cases h
      refine ⟨by simpa using ‹pat.isPrefixOf ([] : Str) = true›,
        fun m hm => absurd hm (Nat.not_lt_zero m)⟩
    · cases h
  | cons c cs ih =>
    unfold findSubAux at h
    split at h
    · cases h
      refine ⟨by simpa using ‹pat.isPrefixOf (c :: cs) = true›,
        fun m hm => absurd hm (Nat.not_lt_zero m)⟩
    · rename_i hp
      obtain ⟨j', hj', rfl⟩ : ∃ j', findSubAux pat cs = some j' ∧ j = j' + 1 := by
        cases hx : findSubAux pat cs with
        | none => rw [hx] at h; cases h
        | some k => rw [hx] at h; simp only [Option.map_some'] at h; cases h; exact ⟨k, rfl, rfl⟩
      obtain ⟨h1, h2⟩ := ih hj'
      refine ⟨by simpa using h1, ?_⟩
      intro m hm
      cases m with
      | zero => simp only [List.drop_zero]; exact Bool.eq_false_iff.mpr hp
      | succ m' => simpa using h2 m' (Nat.lt_of_succ_lt_succ hm)

theorem findSubAux_none {pat l : Str} (h : findSubAux pat l = none) :
    ∀ m, pat.isPrefixOf (l.drop m) = false := by
  induction l with
  | nil =>
    unfold findSubAux at h
    split at h
    · cases h
    · rename_i hp
      intro m
      simp only [List.drop_nil]
      exact Bool.eq_false_iff.mpr hp
  | cons c cs ih =>
    unfold findSubAux at h
    split at h
    · cases h
    · rename_i hp
      have hcs : findSubAux pat cs = none := by
        cases hx : findSubAux pat cs with
        | none => rfl
        | some k => rw [hx] at h; cases h
      intro m
      cases m with
      | zero => simp only [List.drop_zero]; exact Bool.eq_false_iff.mpr hp
      | succ m' => simpa using ih hcs m'

theorem findSub_some {content pat : Str} {s n : Nat} (h : findSub content pat s = some n) :
    s ≤ n ∧ pat.isPrefixOf (content.drop n) = true ∧
      ∀ k, s ≤ k → k < n → pat.isPrefixOf (content.drop k) = false := by
  unfold findSub at h
  obtain ⟨j, hj, rfl⟩ : ∃ j, findSubAux pat (content.drop s) = some j ∧ n = j + s := by
    cases hx : findSubAux pat (content.drop s) with
    | none => rw [hx] at h; cases h
    | some k => rw [hx] at h; simp only [Option.map_some'] at h; cases h; exact ⟨k, rfl, rfl⟩
  obtain ⟨h1, h2⟩ := findSubAux_some hj
  refine ⟨Nat.le_add_left s j, ?_, ?_⟩
  · rwa [List.drop_drop, Nat.add_comm s j] at h1
  · intro k hks hkn
    have hm : k - s < j := by omega
    have := h2 (k - s) hm
    rwa [List.drop_drop, Nat.add_sub_cancel' hks] at this

theorem findSub_none {content pat : Str} {s : Nat} (h : findSub content pat s = none) :
    ∀ k, s ≤ k → pat.isPrefixOf (content.drop k) = false := by
  unfold findSub at h
  have hx : findSubAux pat (content.drop s) = none := by
    cases hx : findSubAux pat (content.drop s) with
    | none => rfl
    | some k => rw [hx] at h; cases h
  intro k hk
  have := findSubAux_none hx (k - s)
  rwa [List.drop_drop, Nat.add_sub_cancel' hk] at this

theorem getD_takeWhile_sat {p : Char → Bool} {l : Str} {j : Nat}
    (h : j < (l.takeWhile p).length) (d : Char) : p (l.getD j d) = true := by
  induction l generalizing j with
  | nil => simp [List.takeWhile] at h
  | cons c cs ih =>
    rw [List.takeWhile_cons] at h
    by_cases hc : p c
    · rw [if_pos hc] at h
      cases j with
      | zero => simpa using hc
      | succ j' =>
        simp only [List.length_cons] at h
        simpa using ih (Nat.lt_of_succ_lt_succ h)
    · rw [if_neg hc] at h
      simp at h

theorem getD_takeWhile_stop {p : Char → Bool} {l : Str}
    (h : (l.takeWhile p).length < l.length) (d : Char) :
    p (l.getD (l.takeWhile p).length d) = false := by
  induction l with
  | nil => simp at h
  | cons c cs ih =>
    by_cases hc : p c
    · rw [List.takeWhile_cons, if_pos hc] at h ⊢
      simp only [List.length_cons] at h ⊢
      simpa using ih (Nat.lt_of_succ_lt_succ h)
    · rw [List.takeWhile_cons, if_neg hc]
      simpa using hc

theorem all_take_takeWhile {p : Char → Bool} {l : Str} {k : Nat}
    (hk : k ≤ (l.takeWhile p).length) : ∀ a ∈ l.take k, p a = true := by
  induction l generalizing k with
  | nil => simp
  | cons c cs ih =>
    cases k with
    | zero => simp
    | succ k' =>
      rw [List.takeWhile_cons] at hk
      by_cases hc : p c
      · rw [if_pos hc] at hk
        simp only [List.length_cons] at hk
        intro a ha
        simp only [List.take_succ_cons, List.mem_cons] at ha
        rcases ha with rfl | ha
        · exact hc
        · exact ih (Nat.le_of_succ_le_succ hk) a ha
      · rw [if_neg hc] at hk
        simp at hk

theorem replaceFirst_spec {old buf : Str} (new : Str) (h : old <:+: buf) :
    ∃ pre post, buf = pre ++ old ++ post ∧
      replaceFirst old new buf = pre ++ new ++ post ∧
      ∀ pre2 post2, buf = pre2 ++ old ++ post2 → pre.length ≤ pre2.length := by
  induction buf with
  | nil =>
    obtain ⟨s, t, hst⟩ := h
    have hs : old = [] := by
      rcases List.append_eq_nil.mp hst with ⟨h1, -⟩
      rcases List.append_eq_nil.mp h1 with ⟨-, h2⟩
      exact h2
    subst hs
    exact ⟨[], [], by simp, by simp [replaceFirst], fun _ _ _ => Nat.zero_le _⟩
  | cons c cs ih =>
    by_cases hp : old.isPrefixOf (c :: cs) = true
    · refine ⟨[], (c :: cs).drop old.length, ?_, ?_, fun _ _ _ => Nat.zero_le _⟩
      · simpa using eq_append_drop_of_isPrefixOf hp
      · simp [replaceFirst, hp]
    · have hcs : old <:+: cs := by
        obtain ⟨s, t, hst⟩ := h
        cases s with
        | nil =>
          exfalso
          apply hp
          rw [show c :: cs = old ++ t by simpa using hst.symm]
          exact isPrefixOf_append_self old t
        | cons x s' =>
          refine ⟨s', t, ?_⟩
          have : x :: (s' ++ old ++ t) = c :: cs := by simpa using hst
          exact (List.cons.injEq ..).mp this |>.2
      obtain ⟨pre, post, h1, h2, h3⟩ := ih hcs
      refine ⟨c :: pre, post, by simp [h1], ?_, ?_⟩
      · simp only [replaceFirst, hp, if_false, Bool.false_eq_true, h2]
        simp
      · intro pre2 post2 hb
        cases pre2 with
        | nil =>
          exfalso
          apply hp
          rw [show c :: cs = old ++ post2 by simpa using hb]
          exact isPrefixOf_append_self old post2
        | cons x pre2' =>
          have hx : x :: (pre2' ++ old ++ post2) = c :: cs := by simpa using hb.symm
          have := h3 pre2' post2 ((List.cons.injEq ..).mp hx).2.symm
          simpa [List.length_cons] using Nat.succ_le_succ this

/-! ### Lemmas for the namespace locator -/

theorem prefix_cons_cases {p : Str} {c : Char} {l : Str} (h : p <+: c :: l) :
    p = [] ∨ ∃ p', p = c :: p' ∧ p' <+: l := by
  cases p with
  | nil => exact Or.inl rfl
  | cons x p' =>
    rw [List.cons_prefix_cons] at h
    exact Or.inr ⟨p', by rw [h.1], h.2⟩

theorem depth_cons (c : Char) (l : Str) :
    depth (c :: l) =
      (if c = lbrace then 1 else if c = rbrace then (-1 : Int) else 0) + depth l := by
  simp only [depth, List.count_cons]
  by_cases h1 : c = lbrace
  · rw [if_pos h1, if_pos (beq_iff_eq.mpr h1),
        if_neg (by subst h1; decide : ¬ (c == rbrace) = true)]
    push_cast
    ring
  · by_cases h2 : c = rbrace
    · rw [if_neg h1, if_pos h2, if_pos (beq_iff_eq.mpr h2),
          if_neg (by subst h2; decide : ¬ (c == lbrace) = true)]
      push_cast
      ring
    · rw [if_neg h1, if_neg h2,
          if_neg (by simpa [beq_iff_eq] using h1 : ¬ (c == lbrace) = true),
          if_neg (by simpa [beq_iff_eq] using h2 : ¬ (c == rbrace) = true)]
      push_cast
      ring

theorem scanBody_spec {cs body : Str} {d : Nat} (hd : 1 ≤ d) (h : scanBody cs d = some body) :
    ∃ tail, cs = body ++ rbrace :: tail ∧ (d : Int) + depth body = 1 ∧
      ∀ p, p <+: body → 1 ≤ (d : Int) + depth p := by
  induction cs generalizing d body with
  | nil => cases h
  | cons c cs ih =>
    simp only [scanBody] at h
    by_cases h2 : (if c = lbrace then d + 1 else if c = rbrace then d - 1 else d) = 0
    · rw [if_pos h2] at h
      cases h
      have hc : c = rbrace ∧ d = 1 := by
        by_cases hl : c = lbrace
        · rw [if_pos hl] at h2
          omega
        · by_cases hr : c = rbrace
          · rw [if_neg hl, if_pos hr] at h2
            exact ⟨hr, by omega⟩
          · rw [if_neg hl, if_neg hr] at h2
            omega
      obtain ⟨rfl, rfl⟩ := hc
      refine ⟨cs, by simp, by simp [depth], ?_⟩
      intro p hp
      rw [List.prefix_nil.mp hp]
      simp [depth]
    · rw [if_neg h2] at h
      obtain ⟨body', hb', rfl⟩ :
          ∃ b', scanBody cs (if c = lbrace then d + 1 else if c = rbrace then d - 1 else d) =
            some b' ∧ body = c :: b' := by
        cases hx : scanBody cs (if c = lbrace then d + 1 else if c = rbrace then d - 1 else d) with
        | none => rw [hx] at h; cases h
        | some b' => rw [hx] at h; simp only [Option.map_some'] at h; cases h; exact ⟨b', rfl, rfl⟩
      have hd2 : 1 ≤ (if c = lbrace then d + 1 else if c = rbrace then d - 1 else d) :=
        Nat.one_le_iff_ne_zero.mpr h2
      obtain ⟨tail, he, hdep, hpre⟩ := ih hd2 hb'
      have hstep :
          (d : Int) + (if c = lbrace then 1 else if c = rbrace then (-1 : Int) else 0) =
            ((if c = lbrace then d + 1 else if c = rbrace then d - 1 else d : Nat) : Int) := by
        by_cases hl : c = lbrace
        · rw [if_pos hl, if_pos hl]
          push_cast
          ring
        · by_cases hr : c = rbrace
          · rw [if_neg hl, if_pos hr, if_neg hl, if_pos hr]
            push_cast [hd]
            ring
          · rw [if_neg hl, if_neg hr, if_neg hl, if_neg hr]
            ring
      refine ⟨tail, by rw [he]; simp, ?_, ?_⟩
      · rw [depth_cons]
        omega
      · intro p hp
        rcases prefix_cons_cases hp with rfl | ⟨p', rfl, hp'⟩
        · simp [depth]
          omega
        · rw [depth_cons]
          have := hpre p' hp'
          omega

theorem nameAt_spec {rest name : Str} {j : Nat} {r2 : Str} (h : nameAt rest name j = some r2) :
    ∃ o, 1 ≤ o ∧ o ≤ j ∧ name.isPrefixOf (rest.drop o) = true ∧
      r2 = (rest.drop o).drop name.length := by
  induction j with
  | zero => cases h
  | succ j' ih =>
    unfold nameAt at h
    split at h
    · cases h
      exact ⟨j' + 1, Nat.succ_le_succ (Nat.zero_le j'), Nat.le_refl _, by assumption, rfl⟩
    · obtain ⟨o, h1, h2, h3, h4⟩ := ih h
      exact ⟨o, h1, Nat.le_succ_of_le h2, h3, h4⟩

theorem braceAt_spec {r2 : Str} {j : Nat} {t : Str} (h : braceAt r2 j = some t) :
    ∃ k, k ≤ j ∧ r2.drop k = lbrace :: t := by
  induction j with
  | zero =>
    cases hr : r2 with
    | nil => rw [hr] at h; simp [braceAt] at h
    | cons c t' =>
      rw [hr] at h
      simp only [braceAt] at h
      have h2 : (if c = lbrace then some t' else none) = some t := h
      by_cases hc : c = lbrace
      · rw [if_pos hc] at h2
        cases h2
        exact ⟨0, Nat.le_refl 0, by simp [hr, hc]⟩
      · rw [if_neg hc] at h2
        cases h2
  | succ j' ih =>
    simp only [braceAt] at h
    cases hd : r2.drop (j' + 1) with
    | nil =>
      rw [hd] at h
      obtain ⟨k, hk, he⟩ := ih h
      exact ⟨k, Nat.le_succ_of_le hk, he⟩
    | cons c t' =>
      rw [hd] at h
      have h2 : (if c = lbrace then some t' else braceAt r2 j') = some t := h
      by_cases hc : c = lbrace
      · rw [if_pos hc] at h2
        cases h2
        exact ⟨j' + 1, Nat.le_refl _, by rw [hd, hc]⟩
      · rw [if_neg hc] at h2
        obtain ⟨k, hk, he⟩ := ih h2
        exact ⟨k, Nat.le_succ_of_le hk, he⟩

theorem wsRun_le_length (l : Str) : wsRun l ≤ l.length := by
  simpa [wsRun] using (List.takeWhile_sublist isSpace).length_le

theorem nsKeyword_length : nsKeyword.length = 9 := by decide

theorem nsHeaderMatch_spec {name cs t : Str} (h : nsHeaderMatch name cs = some t) :
    ∃ w1 w2, cs = nsKeyword ++ w1 ++ name ++ w2 ++ lbrace :: t ∧ w1 ≠ [] ∧
      (∀ a ∈ w1, isSpace a = true) ∧ (∀ a ∈ w2, isSpace a = true) := by
  unfold nsHeaderMatch at h
  split at h
  case isFalse => cases h
  case isTrue hpre =>
    have h' : (match nameAt (cs.drop 9) name (wsRun (cs.drop 9)) with
               | some rest2 => braceAt rest2 (wsRun rest2)
               | none => none) = some t := h
    cases hn : nameAt (cs.drop 9) name (wsRun (cs.drop 9)) with
    | none => rw [hn] at h'; cases h'
    | some rest2 =>
      rw [hn] at h'
      obtain ⟨o, ho1, ho2, hpref, hr2⟩ := nameAt_spec hn
      obtain ⟨k, hk, hdk⟩ := braceAt_spec h' 
      have hcs : cs = nsKeyword ++ cs.drop 9 := by
        have := eq_append_drop_of_isPrefixOf hpre
        rwa [nsKeyword_length] at this
      have hdropo : (cs.drop 9).drop o = name ++ rest2 := by
        rw [hr2]
        exact eq_append_drop_of_isPrefixOf hpref
      have hrest2 : rest2 = rest2.take k ++ lbrace :: t := by
        conv_lhs => rw [← List.take_append_drop k rest2]
        rw [hdk]
      refine ⟨(cs.drop 9).take o, rest2.take k, ?_, ?_, ?_, ?_⟩
      · conv_lhs => rw [hcs]
        conv_lhs => rw [← List.take_append_drop o (cs.drop 9)]
        rw [hdropo]
        conv_lhs => rw [hrest2]
        simp [List.append_assoc]
      · have hlen : 1 ≤ (cs.drop 9).length := by
          have := wsRun_le_length (cs.drop 9)
          omega
        intro hnil
        have := congrArg List.length hnil
        simp only [List.length_take, List.length_nil] at this
        omega
      · exact all_take_takeWhile ho2
      · exact all_take_takeWhile hk

theorem nsSearch_spec {name content r : Str} (h : nsSearch name content = some r) :
    ∃ pre w1 w2, content = pre ++ nsKeyword ++ w1 ++ name ++ w2 ++ lbrace :: r ∧ w1 ≠ [] ∧
      (∀ a ∈ w1, isSpace a = true) ∧ (∀ a ∈ w2, isSpace a = true) := by
  induction content with
  | nil => cases h
  | cons c cs ih =>
    simp only [nsSearch] at h
    cases hm : nsHeaderMatch name (c :: cs) with
    | some r' =>
      rw [hm] at h
      cases h
      obtain ⟨w1, w2, he, hne, hw1, hw2⟩ := nsHeaderMatch_spec hm
      exact ⟨[], w1, w2, by simpa using he, hne, hw1, hw2⟩
    | none =>
      rw [hm] at h
      obtain ⟨pre, w1, w2, he, hne, hw1, hw2⟩ := ih h
      exact ⟨c :: pre, w1, w2, by simp [he], hne, hw1, hw2⟩

theorem nsBody_spec {name content body : Str} (h : nsBody name content = some body) :
    ∃ pre w1 w2 tail,
      content = pre ++ nsKeyword ++ w1 ++ name ++ w2 ++ lbrace :: (body ++ rbrace :: tail) ∧
      w1 ≠ [] ∧ (∀ a ∈ w1, isSpace a = true) ∧ (∀ a ∈ w2, isSpace a = true) ∧
      depth body = 0 ∧ ∀ p, p <+: body → 0 ≤ depth p := by
  unfold nsBody at h
  obtain ⟨rest, hs, hscan⟩ := Option.bind_eq_some.mp h
  obtain ⟨tail, he, hdep, hpre⟩ := scanBody_spec (Nat.le_refl 1) hscan
  obtain ⟨pre, w1, w2, hc, hne, hw1, hw2⟩ := nsSearch_spec hs
  refine ⟨pre, w1, w2, tail, ?_, hne, hw1, hw2, by omega, ?_⟩
  · rw [hc, he]
  · intro p hp
    have := hpre p hp
    omega

/-! ### Session driver lemmas -/

theorem run_task_of_ok {o : BackendOutcome} (h : okResponse o) : run_task o = none := by
  obtain ⟨out, rfl, hs⟩ := h
  simp [run_task, hs]

theorem sessionLoop_preserves {ctp : Str} {classes : List ClassSpan} {ft : Option Str}
    {yolo : Bool} {choices : Nat → Choice} {backend : Nat → BackendOutcome}
    (h : ∀ i, (yolo = false ∧ choices i = Choice.n) ∨ okResponse (backend i)) :
    ∀ spans i modified,
      sessionLoop ctp classes ft yolo choices backend spans i modified = modified := by
  intro spans
  induction spans with
  | nil => intro i modified; rfl
  | cons hd rest ih =>
    intro i modified
    obtain ⟨s, e⟩ := hd
    rcases h i with ⟨hy, hn⟩ | hok
    · subst hy
      simp only [sessionLoop, hn, Bool.false_eq_true, if_false]
      split
      · exact ih (i + 1) modified
      · split
        · exact ih (i + 1) modified
        · exact ih (i + 1) modified
    · have hrt := run_task_of_ok hok
      simp only [sessionLoop, hrt]
      split
      · exact ih (i + 1) modified
      · split
        · exact ih (i + 1) modified
        · split
          · exact ih (i + 1) modified
          · cases hc : choices i with
            | y => exact ih (i + 1) modified
            | n => exact ih (i + 1) modified
            | q => rfl
            | d dr => exact ih (i + 1) modified

/-- Claim C1: for every input file and every run in which each candidate
action is skip (interactive mode) or the trimmed backend response for every
processed candidate is OK, the final working buffer equals the original
file content exactly and the file is never rewritten. -/
theorem roundtrip_skip_or_ok (argv : List Str) (content : Str) (choices : Nat → Choice)
    (backend : Nat → BackendOutcome) (confirmWrite : Bool)
    (h : ∀ i, ((parseArgs argv).yolo = false ∧ choices i = Choice.n) ∨ okResponse (backend i)) :
    (runMain argv content choices backend confirmWrite).written = none ∧
    (runMain argv content choices backend confirmWrite).finalBuffer.getD content = content := by
  unfold runMain
  cases hfp : (parseArgs argv).filePath with
  | none => simp [hfp]
  | some fp =>
    by_cases hfpe : fp = []
    · simp [hfp, hfpe]
    · cases hctp : (match (parseArgs argv).namespaceArg with
                    | some ns => if ns = [] then some content else find_namespace_content content ns
                    | none => some content) with
      | none => simp [hfp, hfpe, hctp]
      | some ctp =>
        simp only [hfp, hctp, sessionLoop_preserves h]
        simp [hfpe]

/-- Witness for Claim C1 at a concrete run: a one-comment file, the
operator skips the candidate, and the driver leaves the file untouched. -/
theorem roundtrip_skip_or_ok_witness :
    (runMain [chars "f.ts"] (chars "/** a */ x") (fun _ => Choice.n)
        (fun _ => BackendOutcome.fileNotFound) true).written = none ∧
    (runMain [chars "f.ts"] (chars "/** a */ x") (fun _ => Choice.n)
        (fun _ => BackendOutcome.fileNotFound) true).finalBuffer.getD (chars "/** a */ x") =
      chars "/** a */ x" :=
  roundtrip_skip_or_ok [chars "f.ts"] (chars "/** a */ x") (fun _ => Choice.n)
    (fun _ => BackendOutcome.fileNotFound) true (fun _ => Or.inl ⟨rfl, rfl⟩)

/-- Claim C4: a missing (or empty, hence falsy) file path, or a non-empty
namespace path that cannot be resolved, makes the run exit with a non-zero
status before any file mutation, so the file on disk is unchanged. -/
theorem config_error_aborts (argv : List Str) (content : Str) (choices : Nat → Choice)
    (backend : Nat → BackendOutcome) (confirmWrite : Bool)
    (h : (parseArgs argv).filePath.getD [] = [] ∨
      ∃ ns, (parseArgs argv).namespaceArg = some ns ∧ ns ≠ [] ∧
        find_namespace_content content ns = none) :
    (runMain argv content choices backend confirmWrite).exitCode ≠ 0 ∧
    (runMain argv content choices backend confirmWrite).written = none := by
  unfold runMain
  cases hfp : (parseArgs argv).filePath with
  | none => simp [hfp]
  | some fp =>
    by_cases hfpe : fp = []
    · simp [hfp, hfpe]
    · rcases h with hl | ⟨ns, hns, hnse, hfind⟩
      · rw [hfp] at hl
        simp only [Option.getD_some] at hl
        exact absurd hl hfpe
      · simp [hfp, hfpe, hns, hnse, hfind]

/-- Witness for Claim C4 at the spec scenario: a namespace path Foo.Bar
whose Bar segment does not exist; the run exits non-zero with no write. -/
theorem config_error_aborts_witness :
    (runMain [chars "f.ts", chars "--namespace=Foo.Bar"]
        (chars "namespace Foo \x7b\x7d") (fun _ => Choice.n)
        (fun _ => BackendOutcome.fileNotFound) true).exitCode ≠ 0 ∧
    (runMain [chars "f.ts", chars "--namespace=Foo.Bar"]
        (chars "namespace Foo \x7b\x7d") (fun _ => Choice.n)
        (fun _ => BackendOutcome.fileNotFound) true).written = none :=
  config_error_aborts [chars "f.ts", chars "--namespace=Foo.Bar"]
    (chars "namespace Foo \x7b\x7d") (fun _ => Choice.n)
    (fun _ => BackendOutcome.fileNotFound) true
    (Or.inr ⟨chars "Foo.Bar", rfl, by decide, by decide⟩)

/-- Claim C5: when the backend executable is missing or the backend process
exits non-zero, run_task reports no proposed change (None), no substitution
is performed for that candidate, and the driver continues with the next
candidate instead of aborting. -/
theorem backend_failure_continues (ctp : Str) (classes : List ClassSpan) (ft : Option Str)
    (yolo : Bool) (choices : Nat → Choice) (backend : Nat → BackendOutcome)
    (s e i : Nat) (rest : List (Nat × Nat)) (modified : Str)
    (hfail : backend i = BackendOutcome.fileNotFound ∨
      ∃ err, backend i = BackendOutcome.calledProcessError err)
    (happrove : yolo = true ∨ choices i = Choice.y ∨ ∃ dr, choices i = Choice.d dr) :
    run_task (backend i) = none ∧
    sessionLoop ctp classes ft yolo choices backend ((s, e) :: rest) i modified =
      sessionLoop ctp classes ft yolo choices backend rest (i + 1) modified := by
  have hrt : run_task (backend i) = none := by
    rcases hfail with hf | ⟨err, hf⟩ <;> simp [run_task, hf]
  refine ⟨hrt, ?_⟩
  simp only [sessionLoop, hrt]
  split
  · rfl
  · split
    · rfl
    · split
      · rfl
      · rename_i hyolo
        rcases happrove with hy | hc | ⟨dr, hc⟩
        · exact absurd hy hyolo
        · simp [hc]
        · simp [hc]

/-- Witness for Claim C5: a concrete candidate whose backend call fails
with a missing executable; the buffer is unchanged and the loop moves on. -/
theorem backend_failure_continues_witness :
    run_task ((fun _ => BackendOutcome.fileNotFound) 0) = none ∧
    sessionLoop (chars "/** a */ x") [] none false (fun _ => Choice.y)
        (fun _ => BackendOutcome.fileNotFound) [(0, 8)] 0 (chars "/** a */ x") =
      sessionLoop (chars "/** a */ x") [] none false (fun _ => Choice.y)
        (fun _ => BackendOutcome.fileNotFound) [] 1 (chars "/** a */ x") :=
  backend_failure_continues (chars "/** a */ x") [] none false (fun _ => Choice.y)
    (fun _ => BackendOutcome.fileNotFound) 0 8 0 [] (chars "/** a */ x")
    (Or.inl rfl) (Or.inr (Or.inl rfl))

/-- Claim C7: an approved replacement (a truthy, non-empty run_task result,
as the driver checks before substituting) mutates the working buffer by a
first-occurrence substitution of the original comment text with the
proposed comment (at most one occurrence is replaced): the driver step
applies replaceFirst to the buffer, and replaceFirst rewrites exactly the
earliest occurrence, copying all text before and after it unchanged. -/
theorem approved_replacement_first_occurrence (ctp : Str) (classes : List ClassSpan)
    (ft : Option Str) (yolo : Bool) (choices : Nat → Choice) (backend : Nat → BackendOutcome)
    (s e i : Nat) (rest : List (Nat × Nat)) (modified dcl t old new buf : Str)
    (hfilter : filteredOut ft (pySlice ctp s e) = false)
    (hdecl : declarationAt ctp e (nextTsdocStart ctp rest) = some dcl)
    (happrove : yolo = true ∨ choices i = Choice.y ∨ ∃ dr, choices i = Choice.d dr)
    (hrun : run_task (backend i) = some t)
    (hne : t ≠ [])
    (hocc : old <:+: buf) :
    sessionLoop ctp classes ft yolo choices backend ((s, e) :: rest) i modified =
      sessionLoop ctp classes ft yolo choices backend rest (i + 1)
        (replaceFirst (pySlice ctp s e) (remove_markdown_fences t) modified) ∧
    ∃ pre post, buf = pre ++ old ++ post ∧
      replaceFirst old new buf = pre ++ new ++ post ∧
      ∀ pre2 post2, buf = pre2 ++ old ++ post2 → pre.length ≤ pre2.length := by
  refine ⟨?_, replaceFirst_spec new hocc⟩
  simp only [sessionLoop, hfilter, Bool.false_eq_true, if_false, hdecl, hrun, if_neg hne]
  rcases happrove with hy | hc | ⟨dr, hc⟩
  · simp [hy]
  · split
    · rfl
    · simp [hc]
  · split
    · rfl
    · simp [hc]

/-- Witness for Claim C7: a concrete approved candidate in unattended mode
and a concrete buffer with two identical occurrences, of which exactly the
first is rewritten. -/
theorem approved_replacement_first_occurrence_witness :
    (sessionLoop (chars "/** a */ x") [] none true (fun _ => Choice.y)
        (fun _ => BackendOutcome.success (chars "/** b */")) [(0, 8)] 0
        (chars "/** a */ x") =
      sessionLoop (chars "/** a */ x") [] none true (fun _ => Choice.y)
        (fun _ => BackendOutcome.success (chars "/** b */")) [] 1
        (replaceFirst (pySlice (chars "/** a */ x") 0 8)
          (remove_markdown_fences (chars "/** b */")) (chars "/** a */ x"))) ∧
    ∃ pre post, chars "abab" = pre ++ chars "b" ++ post ∧
      replaceFirst (chars "b") (chars "c") (chars "abab") = pre ++ chars "c" ++ post ∧
      ∀ pre2 post2, chars "abab" = pre2 ++ chars "b" ++ post2 → pre.length ≤ pre2.length :=
  approved_replacement_first_occurrence (chars "/** a */ x") [] none true (fun _ => Choice.y)
    (fun _ => BackendOutcome.success (chars "/** b */")) 0 8 0 [] (chars "/** a */ x")
    (chars "x") (chars "/** b */") (chars "b") (chars "c") (chars "abab")
    rfl (by decide) (Or.inl rfl) (by decide) (by decide) ⟨chars "a", chars "ab", by decide⟩

/-- Claim C8: in the spec scenario (single candidate, backend proposes a
new comment, write confirmed) the written file carries exactly the
replacement in place of the old comment while every other byte, including
the following declaration, is unchanged: the original and written contents
share the identical suffix after the swapped comment. -/
theorem single_replacement_frame :
    chars "/** old */\nfunction f() \x7b\x7d" =
      chars "/** old */" ++ chars "\nfunction f() \x7b\x7d" ∧
    (runMain [chars "f.ts"] (chars "/** old */\nfunction f() \x7b\x7d") (fun _ => Choice.y)
        (fun _ => BackendOutcome.success (chars "/** New, better doc. */")) true).written =
      some (chars "/** New, better doc. */" ++ chars "\nfunction f() \x7b\x7d") := by
  constructor
  · decide
  · decide

/-- Claim C9: with a namespace restriction, candidates come only from the
namespace region, but the approved replacement rewrites the first
occurrence in the whole file: on this input the byte-identical comment
before the namespace is the one replaced, while the occurrence inside the
scanned region stays. -/
theorem scoped_scan_global_replace :
    chars "/** dup */ a\nnamespace N \x7b\n/** dup */\nb\n\x7d\n" =
      chars "/** dup */" ++ chars " a\nnamespace N \x7b\n/** dup */\nb\n\x7d\n" ∧
    (runMain [chars "f.ts", chars "--namespace=N"]
        (chars "/** dup */ a\nnamespace N \x7b\n/** dup */\nb\n\x7d\n") (fun _ => Choice.y)
        (fun _ => BackendOutcome.success (chars "/** new */")) true).written =
      some (chars "/** new */" ++ chars " a\nnamespace N \x7b\n/** dup */\nb\n\x7d\n") := by
  constructor
  · decide
  · decide

/-! ### Fence stripping lemmas -/

theorem fence_no_newline : '\n' ∉ fenceMarker := by decide

theorem isSuffixOf_append_self (l r : Str) : l.isSuffixOf (r ++ l) = true :=
  List.isSuffixOf_iff_suffix.mpr ⟨r, rfl⟩

theorem pySplit_fence_wrapped (tag inner : Str) (htag : '\n' ∉ tag) :
    pySplit '\n' (fenceMarker ++ tag ++ '\n' :: (inner ++ '\n' :: fenceMarker)) =
      (fenceMarker ++ tag) :: (pySplit '\n' inner ++ [fenceMarker]) := by
  have h1 : fenceMarker ++ tag ++ '\n' :: (inner ++ '\n' :: fenceMarker) =
      (fenceMarker ++ tag) ++ '\n' :: (inner ++ '\n' :: fenceMarker) := by
    simp [List.append_assoc]
  rw [h1, pySplit_append_sep, pySplit_append_sep]
  rw [pySplit_eq_single '\n' (fenceMarker ++ tag) (by
    intro hmem
    rcases List.mem_append.mp hmem with hm | hm
    · exact fence_no_newline hm
    · exact htag hm)]
  rw [pySplit_eq_single '\n' fenceMarker fence_no_newline]
  rfl

theorem pyStrip_fence_wrapped (tag inner : Str) :
    pyStrip (fenceMarker ++ tag ++ '\n' :: (inner ++ '\n' :: fenceMarker)) =
      fenceMarker ++ tag ++ '\n' :: (inner ++ '\n' :: fenceMarker) := by
  apply pyStrip_eq_self (Char.ofNat 96) (Char.ofNat 96)
  · rfl
  · decide
  · have h1 : fenceMarker ++ tag ++ '\n' :: (inner ++ '\n' :: fenceMarker) =
        ((fenceMarker ++ tag ++ '\n' :: inner ++ ['\n', Char.ofNat 96, Char.ofNat 96]) ++
          [Char.ofNat 96]) := by
      simp [fenceMarker, List.append_assoc]
    rw [h1, List.getLast?_concat]
  · decide

/-- Counterexample to Claim C2 as stated: the input made of a space and the
letter x contains no fences, yet the function does not return it unchanged
(the surrounding whitespace is stripped first). -/
theorem fence_strip_claim_cex :
    remove_markdown_fences (chars " x") = chars "x" ∧ chars " x" ≠ chars "x" := by
  constructor
  · decide
  · decide

/-- Claim C2 (amended): the function first strips surrounding whitespace;
then a response wrapped in a single pair of triple-backtick fences with a
newline-free language tag on the opening fence returns exactly the inner
content; whitespace-trimmed input with no opening fence is returned
unchanged; and whitespace-trimmed input that opens a fence but does not end
with a fence marker is returned as-is. -/
theorem fence_strip_spec :
    (∀ tag inner : Str, '\n' ∉ tag →
      remove_markdown_fences (fenceMarker ++ tag ++ '\n' :: (inner ++ '\n' :: fenceMarker)) =
        inner) ∧
    (∀ t2 : Str, pyStrip t2 = t2 → fenceMarker.isPrefixOf t2 = false →
      remove_markdown_fences t2 = t2) ∧
    (∀ t3 : Str, pyStrip t3 = t3 → fenceMarker.isPrefixOf t3 = true →
      fenceMarker.isSuffixOf t3 = false → remove_markdown_fences t3 = t3) := by
  refine ⟨?_, ?_, ?_⟩
  · intro tag inner htag
    have hpre : fenceMarker.isPrefixOf
        (fenceMarker ++ tag ++ '\n' :: (inner ++ '\n' :: fenceMarker)) = true := by
      have h1 : fenceMarker ++ tag ++ '\n' :: (inner ++ '\n' :: fenceMarker) =
          fenceMarker ++ (tag ++ '\n' :: (inner ++ '\n' :: fenceMarker)) := by
        simp [List.append_assoc]
      rw [h1]
      exact isPrefixOf_append_self _ _
    have hsuf : fenceMarker.isSuffixOf
        (fenceMarker ++ tag ++ '\n' :: (inner ++ '\n' :: fenceMarker)) = true := by
      have h1 : fenceMarker ++ tag ++ '\n' :: (inner ++ '\n' :: fenceMarker) =
          (fenceMarker ++ tag ++ '\n' :: inner ++ ['\n']) ++ fenceMarker := by
        simp [List.append_assoc]
      rw [h1]
      exact isSuffixOf_append_self _ _
    simp only [remove_markdown_fences]
    rw [pyStrip_fence_wrapped, hpre, hsuf]
    simp only [Bool.and_self, if_true]
    rw [pySplit_fence_wrapped tag inner htag]
    rw [if_pos (by simp [List.length_append])]
    simp only [isPrefixOf_append_self, List.getLast?_concat, if_true]
    rw [if_pos (by decide : pyStrip fenceMarker = fenceMarker)]
    rw [List.dropLast_concat, pyJoin_pySplit]
  · intro t2 hst hp
    simp only [remove_markdown_fences]
    rw [hst, hp]
    simp
  · intro t3 hst hp hs
    simp only [remove_markdown_fences]
    rw [hst, hp, hs]
    simp

/-- Witness for Claim C2 (amended) at the spec example inputs. -/
theorem fence_strip_spec_witness :
    remove_markdown_fences (fenceMarker ++ chars "ts" ++ '\n' ::
        (chars "/** Foo */" ++ '\n' :: fenceMarker)) = chars "/** Foo */" ∧
    remove_markdown_fences (chars "/** Foo */") = chars "/** Foo */" ∧
    remove_markdown_fences (fenceMarker ++ chars "ts\nfoo") =
      fenceMarker ++ chars "ts\nfoo" :=
  ⟨fence_strip_spec.1 (chars "ts") (chars "/** Foo */") (by decide),
   fence_strip_spec.2.1 (chars "/** Foo */") (by decide) (by decide),
   fence_strip_spec.2.2 (fenceMarker ++ chars "ts\nfoo") (by decide) (by decide) (by decide)⟩

theorem pySplit_append_left_of_no_sep {sep : Char} {xs : Str} (ys : Str) (h : sep ∉ xs) :
    ∃ h0 t0, pySplit sep ys = h0 :: t0 ∧ pySplit sep (xs ++ ys) = (xs ++ h0) :: t0 := by
  obtain ⟨h0, t0, hy⟩ := List.exists_cons_of_ne_nil (pySplit_ne_nil sep ys)
  refine ⟨h0, t0, hy, ?_⟩
  induction xs with
  | nil => simpa using hy
  | cons x xs ih =>
    simp only [List.mem_cons, not_or] at h
    have hx : ¬ x = sep := fun hc => h.1 hc.symm
    rw [List.cons_append]
    simp only [pySplit, if_neg hx, ih h.2]
    rfl

/-- Claim C10: the closing fence of a multi-line fenced response is removed
only when its final line strips to exactly the fence marker; when the last
line carries other content before the trailing backticks (for example the
input made of a fenced first line and foo followed by three backticks), the
whole last line, trailing backticks included, is kept in the result. -/
theorem closing_fence_own_line (w l0 : Str) (h0 : '\n' ∉ l0)
    (hne : pyStrip (l0 ++ fenceMarker) ≠ fenceMarker) :
    ∃ p, remove_markdown_fences (fenceMarker ++ w ++ '\n' :: (l0 ++ fenceMarker)) =
      p ++ (l0 ++ fenceMarker) := by
  have hstrip : pyStrip (fenceMarker ++ w ++ '\n' :: (l0 ++ fenceMarker)) =
      fenceMarker ++ w ++ '\n' :: (l0 ++ fenceMarker) := by
    apply pyStrip_eq_self (Char.ofNat 96) (Char.ofNat 96)
    · rfl
    · decide
    · have h1 : fenceMarker ++ w ++ '\n' :: (l0 ++ fenceMarker) =
          ((fenceMarker ++ w ++ '\n' :: l0 ++ [Char.ofNat 96, Char.ofNat 96]) ++
            [Char.ofNat 96]) := by
        simp [fenceMarker, List.append_assoc]
      rw [h1, List.getLast?_concat]
    · decide
  have hpre : fenceMarker.isPrefixOf (fenceMarker ++ w ++ '\n' :: (l0 ++ fenceMarker)) = true := by
    have h1 : fenceMarker ++ w ++ '\n' :: (l0 ++ fenceMarker) =
        fenceMarker ++ (w ++ '\n' :: (l0 ++ fenceMarker)) := by
      simp [List.append_assoc]
    rw [h1]
    exact isPrefixOf_append_self _ _
  have hsuf : fenceMarker.isSuffixOf (fenceMarker ++ w ++ '\n' :: (l0 ++ fenceMarker)) = true := by
    have h1 : fenceMarker ++ w ++ '\n' :: (l0 ++ fenceMarker) =
        (fenceMarker ++ w ++ '\n' :: l0) ++ fenceMarker := by
      simp [List.append_assoc]
    rw [h1]
    exact isSuffixOf_append_self _ _
  obtain ⟨h0l, t0, hw, hsplit⟩ := pySplit_append_left_of_no_sep w fence_no_newline
  have hlines : pySplit '\n' (fenceMarker ++ w ++ '\n' :: (l0 ++ fenceMarker)) =
      (fenceMarker ++ h0l) :: (t0 ++ [l0 ++ fenceMarker]) := by
    have h1 : fenceMarker ++ w ++ '\n' :: (l0 ++ fenceMarker) =
        (fenceMarker ++ w) ++ '\n' :: (l0 ++ fenceMarker) := by
      simp [List.append_assoc]
    rw [h1, pySplit_append_sep, hsplit]
    rw [pySplit_eq_single '\n' (l0 ++ fenceMarker) (by
      intro hmem
      rcases List.mem_append.mp hmem with hm | hm
      · exact h0 hm
      · exact fence_no_newline hm)]
    rfl
  simp only [remove_markdown_fences]
  rw [hstrip, hpre, hsuf]
  simp only [Bool.and_self, if_true]
  rw [hlines]
  rw [if_pos (by simp [List.length_append])]
  simp only [isPrefixOf_append_self, List.getLast?_concat, if_true]
  rw [if_neg hne]
  cases t0 with
  | nil => exact ⟨[], rfl⟩
  | cons b t2 =>
    rw [pyJoin_concat '\n' (b :: t2) (l0 ++ fenceMarker) (List.cons_ne_nil b t2)]
    exact ⟨pyJoin '\n' (b :: t2) ++ ['\n'], by simp [List.append_assoc]⟩

/-- Witness for Claim C10 at the concrete input of a fenced ts first line
and a last line foo followed by three backticks: the resulting text still
ends with the whole last line. -/
theorem closing_fence_own_line_witness :
    ∃ p, remove_markdown_fences (fenceMarker ++ chars "ts" ++ '\n' ::
        (chars "foo" ++ fenceMarker)) = p ++ (chars "foo" ++ fenceMarker) :=
  closing_fence_own_line (chars "ts") (chars "foo") (by decide) (by decide)

/-- Claim C3: for a dot-separated two-segment path A.B (dot-free names),
whenever the locator returns a region, both segment lookups succeeded, and
the region is the brace-matched body of the B header inside the
brace-matched body of the A header: the decompositions show that the region
excludes everything at or before each opening brace and at or after each
matching closing brace; conversely a missing segment yields no region,
since a returned region certifies both lookups. -/
theorem namespace_scoping (content A B r : Str) (hA : '.' ∉ A) (hB : '.' ∉ B)
    (h : find_namespace_content content (A ++ '.' :: B) = some r) :
    ∃ bodyA, nsBody A content = some bodyA ∧ nsBody B bodyA = some r ∧
      nsDecomp A content bodyA ∧ nsDecomp B bodyA r := by
  unfold find_namespace_content at h
  rw [pySplit_append_sep, pySplit_eq_single '.' A hA, pySplit_eq_single '.' B hB] at h
  obtain ⟨bodyA, h1, h2⟩ : ∃ bodyA, nsBody A content = some bodyA ∧ nsBody B bodyA = some r := by
    have h' : List.foldlM (fun cur n => nsBody n cur) content [A, B] = some r := h
    clear h
    rename' h' => h
    rw [List.foldlM_cons] at h
    cases hx : nsBody A content with
    | none => rw [hx] at h; simp at h
    | some bodyA =>
      rw [hx] at h
      simp only [Option.bind_eq_bind, Option.some_bind] at h
      rw [List.foldlM_cons] at h
      refine ⟨bodyA, rfl, ?_⟩
      cases hy : nsBody B bodyA with
      | none => rw [hy] at h; simp at h
      | some rr =>
        rw [hy] at h
        simpa using h
  refine ⟨bodyA, h1, h2, nsBody_spec h1, nsBody_spec h2⟩

/-- Witness for Claim C3 on a concrete nested-namespace text: the located
region for the path A.B is the body of B, with both decompositions. -/
theorem namespace_scoping_witness :
    find_namespace_content (chars "namespace A \x7b namespace B \x7b x \x7d \x7d")
        (chars "A" ++ '.' :: chars "B") = some (chars " x ") ∧
    (∃ bodyA, nsBody (chars "A") (chars "namespace A \x7b namespace B \x7b x \x7d \x7d") =
        some bodyA ∧ nsBody (chars "B") bodyA = some (chars " x ") ∧
      nsDecomp (chars "A") (chars "namespace A \x7b namespace B \x7b x \x7d \x7d") bodyA ∧
      nsDecomp (chars "B") bodyA (chars " x ")) :=
  ⟨by decide,
   namespace_scoping (chars "namespace A \x7b namespace B \x7b x \x7d \x7d") (chars "A")
     (chars "B") (chars " x ") (by decide) (by decide) (by decide)⟩

/-! ### Declaration matcher lemmas -/

theorem getD_drop_eq (l : Str) (n m : Nat) (d : Char) :
    (l.drop n).getD m d = l.getD (n + m) d := by
  rw [List.getD_eq_getElem?_getD, List.getD_eq_getElem?_getD, List.getElem?_drop]

theorem skipWs_spaces {ctp : Str} {e k : Nat} (h1 : e ≤ k) (h2 : k < skipWs ctp e) :
    isSpace (ctp.getD k ' ') = true := by
  have hm : k - e < ((ctp.drop e).takeWhile isSpace).length := by
    unfold skipWs at h2
    omega
  have hsat := getD_takeWhile_sat hm ' '
  rwa [getD_drop_eq, Nat.add_sub_cancel' h1] at hsat

theorem skipWs_stop {ctp : Str} {e : Nat} (h : skipWs ctp e < ctp.length) :
    isSpace (ctp.getD (skipWs ctp e) ' ') = false := by
  have hlt : ((ctp.drop e).takeWhile isSpace).length < (ctp.drop e).length := by
    rw [List.length_drop]
    unfold skipWs at h
    omega
  have hstop := getD_takeWhile_stop hlt ' '
  rw [getD_drop_eq] at hstop
  unfold skipWs
  exact hstop

theorem newline_at_iff {l : Str} {k : Nat} :
    (['\n'] : Str).isPrefixOf (l.drop k) = true ↔ l[k]? = some '\n' := by
  rw [singleton_isPrefixOf_iff, List.head?_drop]

theorem getElem?_eq_some_getD {l : Str} {k : Nat} (hk : k < l.length) (d : Char) :
    l[k]? = some (l.getD k d) := by
  rw [List.getElem?_eq_getElem hk, List.getD_eq_getElem?_getD, List.getElem?_eq_getElem hk]
  rfl

theorem getElem?_some_imp {l : Str} {k : Nat} {c : Char} (h : l[k]? = some c) (d : Char) :
    k < l.length ∧ l.getD k d = c := by
  have hk : k < l.length := by
    by_contra hk
    rw [List.getElem?_eq_none (Nat.le_of_not_lt hk)] at h
    cases h
  refine ⟨hk, ?_⟩
  rw [List.getD_eq_getElem?_getD, h]
  rfl

/-- Counterexample to Claim C6 as stated: on a comment followed on one line
by a declaration with an opening block marker, the script extracts up to
the newline and keeps the brace, while the claimed boundary rule (nearest
of statement terminator, opening block marker, next comment start) stops
before the brace, so the two extractions differ at this input. -/
theorem declaration_match_cex :
    declarationAt (chars "/** c */\nfunction f() \x7b\n  return 1; \x7d\n") 8
        (chars "/** c */\nfunction f() \x7b\n  return 1; \x7d\n").length =
      some (chars "function f() \x7b") ∧
    declClaimedAt (chars "/** c */\nfunction f() \x7b\n  return 1; \x7d\n") 8
        (chars "/** c */\nfunction f() \x7b\n  return 1; \x7d\n").length =
      some (chars "function f()") ∧
    some (chars "function f() \x7b") ≠ some (chars "function f()") := by
  refine ⟨by decide, by decide, by decide⟩

/-- Claim C6 (amended): the matched declaration text is the text after the
comment with whitespace skipped, taken up to whichever comes first of the
next newline and the start of the next documentation block (statement
terminators and opening block markers are not boundaries), then trimmed:
the slice starts at the first non-whitespace offset after the comment,
contains no newline, ends at or before the next-comment boundary, and its
end is either that boundary or a newline. -/
theorem declaration_match_boundaries (ctp : Str) (e ns : Nat) (d : Str)
    (hns : ns ≤ ctp.length) (h : declarationAt ctp e ns = some d) :
    ∃ ds de, e ≤ ds ∧ ds < ctp.length ∧ de ≤ ns ∧
      (∀ k, e ≤ k → k < ds → isSpace (ctp.getD k ' ') = true) ∧
      isSpace (ctp.getD ds ' ') = false ∧
      (∀ k, ds ≤ k → k < de → ctp.getD k ' ' ≠ '\n') ∧
      (de = ns ∨ (de < ctp.length ∧ ctp.getD de ' ' = '\n')) ∧
      d = pyStrip (pySlice ctp ds de) := by
  simp only [declarationAt] at h
  split at h
  case isFalse => cases h
  case isTrue hds =>
    refine ⟨skipWs ctp e, ?_⟩
    cases hf : findSub ctp ['\n'] (skipWs ctp e) with
    | none =>
      rw [hf] at h
      refine ⟨ns, Nat.le_add_right e _, hds, Nat.le_refl ns, ?_, skipWs_stop hds, ?_,
        Or.inl rfl, (Option.some.inj h).symm⟩
      · intro k h1 h2
        exact skipWs_spaces h1 h2
      · intro k h1 h2 hc
        have hk : k < ctp.length := lt_of_lt_of_le h2 hns
        have hne := findSub_none hf k h1
        have hyes : (['\n'] : Str).isPrefixOf (ctp.drop k) = true := by
          rw [newline_at_iff, getElem?_eq_some_getD hk ' ', hc]
        rw [hyes] at hne
        cases hne
    | some n =>
      rw [hf] at h
      obtain ⟨hdsn, hpref, hmin⟩ := findSub_some hf
      have h2 : some (pyStrip (pySlice ctp (skipWs ctp e) (if ns < n then ns else n))) =
          some d := h
      clear h
      rename' h2 => h
      by_cases hcmp : ns < n
      · rw [if_pos hcmp] at h
        refine ⟨ns, Nat.le_add_right e _, hds, Nat.le_refl ns, ?_, skipWs_stop hds, ?_,
          Or.inl rfl, (Option.some.inj h).symm⟩
        · intro k h1 h2
          exact skipWs_spaces h1 h2
        · intro k h1 h2 hc
          have hk : k < ctp.length := lt_of_lt_of_le h2 hns
          have hne := hmin k h1 (lt_trans h2 hcmp)
          have hyes : (['\n'] : Str).isPrefixOf (ctp.drop k) = true := by
            rw [newline_at_iff, getElem?_eq_some_getD hk ' ', hc]
          rw [hyes] at hne
          cases hne
      · rw [if_neg hcmp] at h
        rw [newline_at_iff] at hpref
        obtain ⟨hnlen, hnchar⟩ := getElem?_some_imp hpref ' '
        refine ⟨n, Nat.le_add_right e _, hds, Nat.le_of_not_lt hcmp, ?_, skipWs_stop hds, ?_,
          Or.inr ⟨hnlen, hnchar⟩, (Option.some.inj h).symm⟩
        · intro k h1 h2
          exact skipWs_spaces h1 h2
        · intro k h1 h2 hc
          have hk : k < ctp.length := lt_trans h2 hnlen
          have hne := hmin k h1 h2
          have hyes : (['\n'] : Str).isPrefixOf (ctp.drop k) = true := by
            rw [newline_at_iff, getElem?_eq_some_getD hk ' ', hc]
          rw [hyes] at hne
          cases hne

/-- Witness for Claim C6 (amended) on a concrete comment followed by a
one-line declaration. -/
theorem declaration_match_boundaries_witness :
    (chars "/** a */ x\n y").length ≤ (chars "/** a */ x\n y").length ∧
    ∃ ds de, 8 ≤ ds ∧ ds < (chars "/** a */ x\n y").length ∧
      de ≤ (chars "/** a */ x\n y").length ∧
      (∀ k, 8 ≤ k → k < ds → isSpace ((chars "/** a */ x\n y").getD k ' ') = true) ∧
      isSpace ((chars "/** a */ x\n y").getD ds ' ') = false ∧
      (∀ k, ds ≤ k → k < de → (chars "/** a */ x\n y").getD k ' ' ≠ '\n') ∧
      (de = (chars "/** a */ x\n y").length ∨
        (de < (chars "/** a */ x\n y").length ∧
          (chars "/** a */ x\n y").getD de ' ' = '\n')) ∧
      chars "x" = pyStrip (pySlice (chars "/** a */ x\n y") ds de) :=
  ⟨Nat.le_refl _,
   declaration_match_boundaries (chars "/** a */ x\n y") 8 (chars "/** a */ x\n y").length
     (chars "x") (Nat.le_refl _) (by decide)⟩
